import Mathlib

/-!
Verification of the NBT Web Explorer core (Region/MCA parsing, chunk
extraction, block-section decoding, and the NBT tree model) against its
natural-language specification.

The TypeScript sources are shallowly embedded: JavaScript numbers used as
integers become `Nat`/`Int` with explicit `% 2 ^ w` where wrapping matters,
`BigInt` becomes `Int` (BigInt `>>` is floor division and `& mask` is the
non-negative remainder for a positive mask, which on `Int` are `/` and `%`),
`Uint8Array` buffers become `List Nat` of byte values, `undefined`-able
reads become `Option`, and functions that may throw (or return `null` after
an internal `catch`) return `Option`.
-/

/-! ## JavaScript primitives used by the sources -/

/-- Two's-complement reinterpretation of a 32-bit unsigned value, as
produced by JavaScript's `|`/`<<` chains on byte values. -/
def toSigned32 (n : Nat) : Int :=
  if n < 2 ^ 31 then (n : Int) else (n : Int) - 2 ^ 32

/-- `buffer[i]` in a numeric context: an out-of-bounds read gives
`undefined`, which the sources' `<< / |` arithmetic coerces to 0. -/
def readByteD (buf : List Nat) (i : Nat) : Nat := buf.getD i 0

/-- Big-endian 24-bit read, `(b[i] << 16) | (b[i+1] << 8) | b[i+2]`. -/
def readU24 (buf : List Nat) (i : Nat) : Nat :=
  readByteD buf i * 2 ^ 16 + readByteD buf (i + 1) * 2 ^ 8 + readByteD buf (i + 2)

/-- Big-endian 32-bit read before sign reinterpretation. -/
def readU32 (buf : List Nat) (i : Nat) : Nat :=
  readByteD buf i * 2 ^ 24 + readByteD buf (i + 1) * 2 ^ 16 +
    readByteD buf (i + 2) * 2 ^ 8 + readByteD buf (i + 3)

/-- Big-endian signed 32-bit read, `(b[i] << 24) | ... | b[i+3]` — the
`<< 24` makes the JavaScript result a signed 32-bit value. -/
def readI32 (buf : List Nat) (i : Nat) : Int := toSigned32 (readU32 buf i)

/-- `TypedArray.prototype.slice(s, e)`: negative indices count from the
end, both ends are clamped to the buffer, and `e ≤ s` gives an empty
result (JavaScript slicing never throws on out-of-range indices). -/
def jsSlice (buf : List Nat) (s e : Int) : List Nat :=
  let len : Int := buf.length
  let s1 : Int := if s < 0 then max (len + s) 0 else min s len
  let e1 : Int := if e < 0 then max (len + e) 0 else min e len
  (buf.take e1.toNat).drop s1.toNat

/-! ## C7: 64-bit split/combine (src/unnamed/part_003, convertValue /
convertToPrismarineValue)

`convertToPrismarineValue` encodes a Long as
`[Number(v >> 32n), Number(v & 0xffffffffn)]`; `convertValue` decodes
`[high, low]` as `BigInt(high) * 2 ** 32 + BigInt(low >>> 0)`.  LongArray
elements use the same two expressions element-wise.  On `Int`, BigInt's
arithmetic right shift by 32 is division by `2 ^ 32` (Euclidean `/` on a
positive divisor is floor division) and `& 0xffffffff` is `% 2 ^ 32`
(non-negative remainder).  Both halves are below `2 ^ 32` in magnitude, so
`Number(...)` is exact. -/

/-- The `[high, low]` pair `[Number(v >> 32n), Number(v & 0xffffffffn)]`
built by `convertToPrismarineValue` for Long and LongArray values. -/
def splitLong (v : Int) : Int × Int := (v / 2 ^ 32, v % 2 ^ 32)

/-- JavaScript `x >>> 0` (ToUint32) on an integer value. -/
def toUint32 (x : Int) : Int := x % 2 ^ 32

/-- The recombination `BigInt(high) * 2 ** 32 + BigInt(low >>> 0)`
performed by `convertValue` for Long and LongArray values. -/
def combineLong (high low : Int) : Int := high * 2 ^ 32 + toUint32 low

/-- C7: for every 64-bit integer `v` in `[-2^63, 2^63)`, splitting `v`
into the `[high, low]` pair as `convertToPrismarineValue` does and
recombining as `convertValue` does yields exactly `v`, including all
negative values. -/
theorem C7_long_split_combine_roundtrip (v : Int)
    (hlo : -2 ^ 63 ≤ v) (hhi : v < 2 ^ 63) :
    combineLong (splitLong v).1 (splitLong v).2 = v := by
  simp only [combineLong, splitLong, toUint32]
  omega

/-- C7 witness: the round trip at the concrete negative value `-2^62 - 5`. -/
theorem C7_long_split_combine_roundtrip_witness :
    combineLong (splitLong (-2 ^ 62 - 5)).1 (splitLong (-2 ^ 62 - 5)).2 = -2 ^ 62 - 5 :=
  C7_long_split_combine_roundtrip (-2 ^ 62 - 5) (by norm_num) (by norm_num)

/-! ## C10: the two Region header parsers
(src/unnamed/part_001 `parseRegionHeader` and src/unnamed/part_003
`parseRegionHeader`)

Both walk slots `i ∈ [0, 1024)` of the first 4 KiB location table and skip
a slot iff the 3-byte offset and the 1-byte sector count are both zero.
The skip test `locationData === 0 && sectorCount === 0` reads the sector
count byte directly, so it is modelled as an `Option Nat` (an
out-of-bounds `undefined` is not `=== 0`); the arithmetic reads coerce
`undefined` to 0 and are modelled with `readByteD`. -/

/-- A present slot of the MCA module's `parseRegionHeader` (its
`ChunkLocation` record). -/
structure McaChunkLocation where
  x : Nat
  z : Nat
  offset : Nat
  sectorCount : Option Nat
  timestamp : Int
deriving DecidableEq, Repr

/-- A present slot of the NBT region module's `parseRegionHeader` (its
`RegionChunkInfo` record), which additionally reads the chunk header. -/
structure NbtRegionChunkInfo where
  x : Nat
  z : Nat
  offset : Nat
  sectorCount : Option Nat
  timestamp : Int
  compressionType : Option Nat
  dataLength : Int
deriving DecidableEq, Repr

/-- Slot `i` of the MCA module's `parseRegionHeader`: `none` when the
slot is skipped (`locationData === 0 && sectorCount === 0`). -/
def mcaHeaderSlot (buf : List Nat) (i : Nat) : Option McaChunkLocation :=
  if readU24 buf (i * 4) = 0 ∧ buf.get? (i * 4 + 3) = some 0 then none
  else some
    { x := i % 32
      z := i / 32
      offset := readU24 buf (i * 4)
      sectorCount := buf.get? (i * 4 + 3)
      timestamp := readI32 buf (4096 + i * 4) }

/-- Slot `i` of the NBT region module's `parseRegionHeader`: the same
skip test and fields, plus the compression type and data length read from
the chunk payload header at `locationData * 4096`. -/
def nbtHeaderSlot (buf : List Nat) (i : Nat) : Option NbtRegionChunkInfo :=
  if readU24 buf (i * 4) = 0 ∧ buf.get? (i * 4 + 3) = some 0 then none
  else some
    { x := i % 32
      z := i / 32
      offset := readU24 buf (i * 4)
      sectorCount := buf.get? (i * 4 + 3)
      timestamp := readI32 buf (4096 + i * 4)
      compressionType := buf.get? (readU24 buf (i * 4) * 4096 + 4)
      dataLength := readI32 buf (readU24 buf (i * 4) * 4096) - 1 }

/-- The MCA module's `parseRegionHeader` output: the ordered list of
present chunk locations (its `availableChunks` / `chunks` map entries). -/
def mcaParseRegionHeader (buf : List Nat) : List McaChunkLocation :=
  (List.range 1024).filterMap (mcaHeaderSlot buf)

/-- The NBT region module's `parseRegionHeader` output: the 1024-slot
array `chunks` of `RegionChunkInfo | null`. -/
def nbtParseRegionHeader (buf : List Nat) : List (Option NbtRegionChunkInfo) :=
  (List.range 1024).map (nbtHeaderSlot buf)

/-- C10: the two independent Region header parsers are equivalent: for
every buffer and slot `i < 1024` they classify the slot as present under
exactly the same condition, and when present they agree on `x = i % 32`,
`z = i / 32`, offset, sector count and timestamp. -/
theorem C10_region_header_parsers_agree (buf : List Nat) (i : Nat)
    (hi : i < 1024) :
    ((mcaHeaderSlot buf i).isSome ↔ (nbtHeaderSlot buf i).isSome) ∧
    (∀ a b, mcaHeaderSlot buf i = some a → nbtHeaderSlot buf i = some b →
      a.x = b.x ∧ a.z = b.z ∧ a.offset = b.offset ∧
      a.sectorCount = b.sectorCount ∧ a.timestamp = b.timestamp) := by
  by_cases h : readU24 buf (i * 4) = 0 ∧ buf.get? (i * 4 + 3) = some 0
  · rw [mcaHeaderSlot, nbtHeaderSlot, if_pos h, if_pos h]
    exact ⟨Iff.rfl, by intro a b ha; cases ha⟩
  · rw [mcaHeaderSlot, nbtHeaderSlot, if_neg h, if_neg h]
    refine ⟨by simp, ?_⟩
    rintro a b ha hb
    simp only [Option.some.injEq] at ha hb
    subst ha; subst hb
    exact ⟨rfl, rfl, rfl, rfl, rfl⟩

/-- C10 witness: the equivalence applied at slot 0 of a concrete
eight-byte buffer whose first slot is present. -/
theorem C10_region_header_parsers_agree_witness :
    ((mcaHeaderSlot [0, 0, 1, 5, 9, 9, 9, 9] 0).isSome ↔
      (nbtHeaderSlot [0, 0, 1, 5, 9, 9, 9, 9] 0).isSome) ∧
    (∀ a b, mcaHeaderSlot [0, 0, 1, 5, 9, 9, 9, 9] 0 = some a →
      nbtHeaderSlot [0, 0, 1, 5, 9, 9, 9, 9] 0 = some b →
      a.x = b.x ∧ a.z = b.z ∧ a.offset = b.offset ∧
      a.sectorCount = b.sectorCount ∧ a.timestamp = b.timestamp) :=
  C10_region_header_parsers_agree [0, 0, 1, 5, 9, 9, 9, 9] 0 (by norm_num)

/-! ## C1: packed block-state decoding (src/unnamed/part_001,
`extractBlocks`, the 1.13–1.17 `Palette`/`BlockStates` branch and the
1.18+ `block_states` branch)

Both branches compute `bitsPerBlock = Math.max(4, Math.ceil(Math.log2(palette.length)))`,
`blocksPerLong = Math.floor(64 / bitsPerBlock)`, and extract the palette
index of block `i` as
`(word[Math.floor(i / blocksPerLong)] >> BigInt((i % blocksPerLong) * bitsPerBlock)) & ((1 << bitsPerBlock) - 1)`.
`Math.ceil (Math.log2 P)` is the exact ceiling log `Nat.clog 2 P` for every
palette length representable as a JavaScript array length (floating-point
rounding could only diverge beyond `2 ^ 53`).  Words are modelled by their
non-negative packed value: for a stored signed 64-bit word the BigInt
arithmetic shift-and-mask gives the same digit because the bit field never
crosses the word's top bit (`bitOffset + bitsPerBlock ≤ 64`). -/

/-- `Math.max(4, Math.ceil(Math.log2(paletteLength)))`. -/
def bitsPerBlock (P : Nat) : Nat := max 4 (Nat.clog 2 P)

/-- `Math.floor(64 / bitsPerBlock)`. -/
def blocksPerLong (P : Nat) : Nat := 64 / bitsPerBlock P

/-- Packs a list of base-`2 ^ bpe` digits into one word, least-significant
digit first: digit `k` occupies bits `[k * bpe, (k+1) * bpe)`. -/
def packWord (bpe : Nat) (ds : List Nat) : Nat :=
  ds.foldr (fun d acc => d + acc * 2 ^ bpe) 0

/-- Word `j` of the packed block-state array for an index sequence
`idx`: the `blocksPerLong P` consecutive indices starting at
`j * blocksPerLong P`, packed low bits first. -/
def packWords (P : Nat) (idx : Nat → Nat) (j : Nat) : Nat :=
  packWord (bitsPerBlock P) ((List.range (blocksPerLong P)).map
    (fun k => idx (j * blocksPerLong P + k)))

/-- The decoder's extraction step for block index `i`:
`(word[i / blocksPerLong] >> ((i % blocksPerLong) * bitsPerBlock)) & ((1 << bitsPerBlock) - 1)`. -/
def extractPaletteIndex (P : Nat) (word : Nat → Nat) (i : Nat) : Nat :=
  word (i / blocksPerLong P) / 2 ^ (i % blocksPerLong P * bitsPerBlock P) %
    2 ^ bitsPerBlock P

/-- A 4096-entry index sequence padded with zeros beyond the section. -/
def padIdx (idx : Nat → Nat) (n : Nat) : Nat := if n < 4096 then idx n else 0


theorem packWord_digit (bpe : Nat) (ds : List Nat)
    (hds : ∀ d ∈ ds, d < 2 ^ bpe) (k : Nat) (hk : k < ds.length) :
    packWord bpe ds / 2 ^ (k * bpe) % 2 ^ bpe = ds.getD k 0 := by
  induction ds generalizing k with
  | nil => simp at hk
  | cons d rest ih =>
    have hd : d < 2 ^ bpe := hds d (by simp)
    have hpow : 0 < 2 ^ bpe := Nat.pos_pow_of_pos bpe (by norm_num)
    have h1 : packWord bpe (d :: rest) = d + packWord bpe rest * 2 ^ bpe := by
      simp [packWord]
    cases k with
    | zero =>
      simp [h1, Nat.add_mul_mod_self_right, Nat.mod_eq_of_lt hd]
    | succ k =>
      have hdiv : packWord bpe (d :: rest) / 2 ^ ((k + 1) * bpe) =
          packWord bpe rest / 2 ^ (k * bpe) := by
        have h2 : (d + packWord bpe rest * 2 ^ bpe) / 2 ^ bpe =
            packWord bpe rest := by
          rw [Nat.add_mul_div_right _ _ hpow, Nat.div_eq_of_lt hd, Nat.zero_add]
        rw [h1, Nat.succ_mul, Nat.add_comm (k * bpe) bpe, Nat.pow_add,
          ← Nat.div_div_eq_div_mul, h2]
      rw [hdiv]
      exact ih (fun x hx => hds x (by simp [hx])) k (by simpa using hk)

theorem extract_of_packWords (Q : Nat) (f : Nat → Nat)
    (hQ : 1 ≤ Q) (hQ64 : Q ≤ 2 ^ 64)
    (hf : ∀ n, n < 4096 → f n < Q) (j : Nat) (hj : j < 4096) :
    extractPaletteIndex Q (packWords Q (padIdx f)) j = f j := by
  have hbpe4 : 4 ≤ bitsPerBlock Q := le_max_left _ _
  have hbpe64 : bitsPerBlock Q ≤ 64 := by
    have hc : Nat.clog 2 Q ≤ 64 := by
      rw [← Nat.le_pow_iff_clog_le (by norm_num)]; exact hQ64
    simp only [bitsPerBlock]
    omega
  have hbpepos : 0 < bitsPerBlock Q := by omega
  have hepw0 : 0 < blocksPerLong Q := by
    rw [blocksPerLong]
    exact Nat.div_pos hbpe64 hbpepos
  have hQpow : Q ≤ 2 ^ bitsPerBlock Q := by
    calc Q ≤ 2 ^ Nat.clog 2 Q := Nat.le_pow_clog (by norm_num) _
      _ ≤ 2 ^ bitsPerBlock Q := Nat.pow_le_pow_right (by norm_num) (le_max_right _ _)
  set bpe := bitsPerBlock Q with hbpedef
  set epw := blocksPerLong Q with hepwdef
  have hlist : ∀ d ∈ (List.range epw).map
      (fun k => padIdx f (j / epw * epw + k)), d < 2 ^ bpe := by
    intro d hd
    rcases List.mem_map.mp hd with ⟨k, _, rfl⟩
    by_cases hcase : j / epw * epw + k < 4096
    · simp only [padIdx, hcase, if_true]
      exact lt_of_lt_of_le (hf _ hcase) hQpow
    · simp only [padIdx, hcase, if_false]
      exact Nat.pos_pow_of_pos bpe (by norm_num)
  have hmod : j % epw < epw := Nat.mod_lt j hepw0
  have hklt : j % epw < ((List.range epw).map
      (fun k => padIdx f (j / epw * epw + k))).length := by
    simpa using hmod
  have hextract := packWord_digit bpe _ hlist (j % epw) hklt
  rw [extractPaletteIndex, packWords, ← hbpedef, ← hepwdef, hextract]
  have hget : ((List.range epw).map
      (fun k => padIdx f (j / epw * epw + k))).getD (j % epw) 0 =
      padIdx f (j / epw * epw + j % epw) := by
    rw [List.getD_eq_getElem?_getD, List.getElem?_map]
    simp [List.getElem?_range, hmod]
  have hsum : j / epw * epw + j % epw = j := by
    rw [Nat.mul_comm]
    exact Nat.div_add_mod j epw
  rw [hget, hsum]
  simp [padIdx, hj]

/-- C1: packed block-state decoding recovers packed indices.  For every
palette length `P ≥ 1` (bounded by `2 ^ 64` so that an index fits a 64-bit
word, as the packing premise requires), every index sequence with values
in `[0, P)` and every block index `i < 4096`, the extraction step of
`extractBlocks` applied to the packed words recovers exactly the original
index; moreover in the concrete case `P = 16` the parameters are
`bitsPerBlock = 4` and `blocksPerLong = 16`, and the repeating sequence
`0,1,...,15,0,1,...` is reproduced exactly. -/
theorem C1_packed_roundtrip (P : Nat) (idx : Nat → Nat) (i : Nat)
    (hP : 1 ≤ P) (hP64 : P ≤ 2 ^ 64)
    (hidx : ∀ n, n < 4096 → idx n < P) (hi : i < 4096) :
    extractPaletteIndex P (packWords P (padIdx idx)) i = idx i ∧
    bitsPerBlock 16 = 4 ∧ blocksPerLong 16 = 16 ∧
    extractPaletteIndex 16 (packWords 16 (padIdx (fun n => n % 16))) i = i % 16 := by
  have hb16 : bitsPerBlock 16 = 4 := by
    have h1 : Nat.clog 2 16 ≤ 4 := by
      rw [← Nat.le_pow_iff_clog_le (by norm_num)]
    have h2 : 4 ≤ Nat.clog 2 16 := by
      have h3 := (Nat.pow_lt_iff_lt_clog (b := 2) (by norm_num) (x := 16) (y := 3)).mp
        (by norm_num)
      omega
    simp only [bitsPerBlock]
    omega
  refine ⟨extract_of_packWords P idx hP hP64 hidx i hi, hb16, ?_, ?_⟩
  · rw [blocksPerLong, hb16]
  · exact extract_of_packWords 16 (fun n => n % 16) (by norm_num) (by norm_num)
      (fun n _ => Nat.mod_lt n (by norm_num)) i hi

/-- C1 witness: the round trip applied at `P = 16`, the repeating index
sequence `n % 16`, and block index `i = 37`. -/
theorem C1_packed_roundtrip_witness :
    extractPaletteIndex 16 (packWords 16 (padIdx (fun n => n % 16))) 37 = 37 % 16 ∧
    bitsPerBlock 16 = 4 ∧ blocksPerLong 16 = 16 :=
  ⟨(C1_packed_roundtrip 16 (fun n => n % 16) 37 (by norm_num) (by norm_num)
      (fun n _ => Nat.mod_lt n (by norm_num)) (by norm_num)).1,
    (C1_packed_roundtrip 16 (fun n => n % 16) 37 (by norm_num) (by norm_num)
      (fun n _ => Nat.mod_lt n (by norm_num)) (by norm_num)).2.1,
    (C1_packed_roundtrip 16 (fun n => n % 16) 37 (by norm_num) (by norm_num)
      (fun n _ => Nat.mod_lt n (by norm_num)) (by norm_num)).2.2.1⟩

/-! ## C8: chunk payload reading (src/unnamed/part_001 `readChunkData`;
src/unnamed/part_003 `extractChunk` has the same header/dispatch/catch
structure, reading the pre-computed `dataLength - 1` from the header
parser instead)

`readChunkData` reads `[i32 length][u8 compressionType][length - 1 bytes]`
at `location.offset * 4096`, slices the payload with
`buffer.slice(dataStart, dataStart + dataLength - 1)`, dispatches on the
compression type (1 = `pako.ungzip`, 2 = `pako.inflate`, 3 = raw), returns
`null` on any other compression type, and its surrounding `try/catch`
turns any thrown decompression error into `null`.  The two pako
decompressors are host library functions and are modelled as parameters
returning `Option` (`none` models a thrown error).  Note `slice` clamps
out-of-range bounds instead of failing (`jsSlice`). -/

/-- `readChunkData(buffer, location)` with the pako decompressors as
parameters; `none` models the `null` results (unknown compression type, or
an error caught by the `try/catch`). -/
def readChunkData (gz zl : List Nat → Option (List Nat))
    (buf : List Nat) (loc : McaChunkLocation) : Option (List Nat) :=
  match buf.get? (loc.offset * 4096 + 4) with
  | some 1 => gz (jsSlice buf (loc.offset * 4096 + 5)
      (loc.offset * 4096 + 5 + readI32 buf (loc.offset * 4096) - 1))
  | some 2 => zl (jsSlice buf (loc.offset * 4096 + 5)
      (loc.offset * 4096 + 5 + readI32 buf (loc.offset * 4096) - 1))
  | some 3 => some (jsSlice buf (loc.offset * 4096 + 5)
      (loc.offset * 4096 + 5 + readI32 buf (loc.offset * 4096) - 1))
  | _ => none

/-- Decoding every chunk of a Region file: the per-chunk results are
collected independently (`null` entries mark failed chunks). -/
def readAllChunks (gz zl : List Nat → Option (List Nat))
    (buf : List Nat) (locs : List McaChunkLocation) : List (Option (List Nat)) :=
  locs.map (readChunkData gz zl buf)

/-- A concrete location record with sector offset 0. -/
def locAtZero : McaChunkLocation :=
  { x := 0, z := 0, offset := 0, sectorCount := some 1, timestamp := 0 }

/-- C8 counterexample: the claim says any out-of-bounds slice yields a
per-chunk failure result (`null`), but JavaScript `slice` clamps instead:
on the 8-byte buffer `[0,0,0,10,3,1,2,3]` the declared length 10 makes
the payload range `[5, 14)` overrun the buffer, yet with compression type
3 `readChunkData` returns the truncated payload `[1,2,3]`, not `null`. -/
theorem C8_oob_slice_counterexample :
    (0 * 4096 + 5 + readI32 [0, 0, 0, 10, 3, 1, 2, 3] (0 * 4096) - 1 >
      ([0, 0, 0, 10, 3, 1, 2, 3] : List Nat).length) ∧
    readChunkData (fun _ => none) (fun _ => none)
      [0, 0, 0, 10, 3, 1, 2, 3] locAtZero = some [1, 2, 3] := by
  constructor
  · decide
  · rfl

/-- C8 (amended): per-chunk reading is the total function `readChunkData`:
compression type 1 applies GZip, 2 applies Zlib, 3 returns the raw
payload slice, any other type byte (or an out-of-bounds type read) gives
`null`, and a decompression failure gives `null` (the decompressor's
`none`); every chunk of a batch is decoded independently of its siblings.
Out-of-bounds payload ranges are clamped by `slice`, so they yield `null`
only when the truncated payload then fails to decompress. -/
theorem C8_chunk_failure_isolation (gz zl : List Nat → Option (List Nat))
    (buf : List Nat) (loc : McaChunkLocation) :
    (buf.get? (loc.offset * 4096 + 4) = some 1 →
      readChunkData gz zl buf loc = gz (jsSlice buf (loc.offset * 4096 + 5)
        (loc.offset * 4096 + 5 + readI32 buf (loc.offset * 4096) - 1))) ∧
    (buf.get? (loc.offset * 4096 + 4) = some 2 →
      readChunkData gz zl buf loc = zl (jsSlice buf (loc.offset * 4096 + 5)
        (loc.offset * 4096 + 5 + readI32 buf (loc.offset * 4096) - 1))) ∧
    (buf.get? (loc.offset * 4096 + 4) = some 3 →
      readChunkData gz zl buf loc = some (jsSlice buf (loc.offset * 4096 + 5)
        (loc.offset * 4096 + 5 + readI32 buf (loc.offset * 4096) - 1))) ∧
    (∀ k, buf.get? (loc.offset * 4096 + 4) = some k → k ≠ 1 → k ≠ 2 → k ≠ 3 →
      readChunkData gz zl buf loc = none) ∧
    (buf.get? (loc.offset * 4096 + 4) = none →
      readChunkData gz zl buf loc = none) ∧
    (∀ locs j (hj : j < locs.length),
      (readAllChunks gz zl buf locs).get ⟨j, by simpa [readAllChunks] using hj⟩ =
        readChunkData gz zl buf (locs.get ⟨j, hj⟩)) := by
  refine ⟨?_, ?_, ?_, ?_, ?_, ?_⟩
  · intro h; rw [readChunkData, h]
  · intro h; rw [readChunkData, h]
  · intro h; rw [readChunkData, h]
  · intro k h h1 h2 h3
    rw [readChunkData, h]
    match k, h1, h2, h3 with
    | 0, _, _, _ => rfl
    | (n + 4), _, _, _ => rfl
    | 1, h1, _, _ => exact absurd rfl h1
    | 2, _, h2, _ => exact absurd rfl h2
    | 3, _, _, h3 => exact absurd rfl h3
  · intro h; rw [readChunkData, h]
  · intro locs j hj
    simp [readAllChunks]

/-- C8 witness: the dispatch equations applied to the concrete buffer of
the counterexample situation but with compression type 2 (Zlib) and an
always-failing decompressor — the chunk fails to `null` in isolation. -/
theorem C8_chunk_failure_isolation_witness :
    readChunkData (fun _ => none) (fun _ => none)
      [0, 0, 0, 10, 2, 1, 2, 3] locAtZero =
      (fun (_ : List Nat) => (none : Option (List Nat)))
        (jsSlice [0, 0, 0, 10, 2, 1, 2, 3] (0 * 4096 + 5)
          (0 * 4096 + 5 + readI32 [0, 0, 0, 10, 2, 1, 2, 3] (0 * 4096) - 1)) :=
  (C8_chunk_failure_isolation (fun _ => none) (fun _ => none)
    [0, 0, 0, 10, 2, 1, 2, 3] locAtZero).2.1 (by rfl)

/-! ## C6: 1.18+ degenerate sections (src/unnamed/part_001,
`extractBlocks`, the `section.block_states` branch)

The chunk document here is the output of `simplifyNbt`, so a palette
entry is either a plain string or an object with optional `Name` and
`Properties` fields, and the `data` array (when present) is a
`BigInt64Array`, i.e. a list of signed 64-bit integers. -/

/-- A palette entry: a block-name string, or an object with an optional
`Name` and optional `Properties` map. -/
inductive PaletteEntry where
  | str (s : String)
  | obj (nm : Option String) (props : Option (List (String × String)))
deriving DecidableEq, Repr

/-- `typeof block === 'string' ? block : block?.Name`. -/
def blockNameOfEntry : PaletteEntry → Option String
  | .str s => some s
  | .obj nm _ => nm

/-- The `Properties` sub-map of an object entry, when present
(`typeof block === 'object' && block?.Properties`). -/
def propsOfEntry : PaletteEntry → Option (List (String × String))
  | .str _ => none
  | .obj _ p => p

/-- `name.replace('minecraft:', '')`.  All block names carry the prefix
at the front or not at all, so replacing the first occurrence is
stripping it. -/
def cleanBlockName (s : String) : String :=
  if s.data.take 10 = "minecraft:".data then { data := s.data.drop 10 } else s

/-- The `blockNameMap` of `getBlockIdFromName`, mapping modern block
names to approximate legacy ids. -/
def blockNameMap : List (String × Nat) :=
  [("stone", 1), ("granite", 1), ("diorite", 1), ("andesite", 1),
   ("grass_block", 2), ("grass", 2),
   ("dirt", 3), ("coarse_dirt", 3), ("podzol", 3),
   ("cobblestone", 4),
   ("oak_planks", 5), ("spruce_planks", 5), ("birch_planks", 5),
   ("jungle_planks", 5), ("acacia_planks", 5), ("dark_oak_planks", 5),
   ("bedrock", 7),
   ("water", 8), ("flowing_water", 8),
   ("lava", 10), ("flowing_lava", 10),
   ("sand", 12), ("red_sand", 12),
   ("gravel", 13),
   ("gold_ore", 14), ("deepslate_gold_ore", 14),
   ("iron_ore", 15), ("deepslate_iron_ore", 15),
   ("coal_ore", 16), ("deepslate_coal_ore", 16),
   ("oak_log", 17), ("spruce_log", 17), ("birch_log", 17), ("jungle_log", 17),
   ("oak_leaves", 18), ("spruce_leaves", 18), ("birch_leaves", 18), ("jungle_leaves", 18),
   ("sandstone", 24),
   ("tall_grass", 31), ("short_grass", 31), ("fern", 31),
   ("dead_bush", 32),
   ("white_wool", 35), ("wool", 35),
   ("dandelion", 37), ("yellow_flower", 37),
   ("poppy", 38), ("rose", 38),
   ("stone_slab", 44), ("smooth_stone_slab", 44),
   ("bricks", 45), ("brick", 45),
   ("mossy_cobblestone", 48),
   ("obsidian", 49),
   ("torch", 50), ("wall_torch", 50),
   ("diamond_ore", 56), ("deepslate_diamond_ore", 56),
   ("redstone_ore", 73), ("deepslate_redstone_ore", 73),
   ("snow", 78), ("snow_layer", 78),
   ("ice", 79),
   ("snow_block", 80),
   ("cactus", 81),
   ("clay", 82),
   ("sugar_cane", 83),
   ("pumpkin", 86),
   ("netherrack", 87),
   ("soul_sand", 88),
   ("glowstone", 89),
   ("stone_bricks", 98), ("mossy_stone_bricks", 98), ("cracked_stone_bricks", 98),
   ("brown_mushroom_block", 99),
   ("red_mushroom_block", 100),
   ("mycelium", 110),
   ("emerald_ore", 129), ("deepslate_emerald_ore", 129),
   ("quartz_block", 155),
   ("terracotta", 159),
   ("acacia_leaves", 161), ("dark_oak_leaves", 161),
   ("acacia_log", 162), ("dark_oak_log", 162),
   ("hay_block", 170),
   ("hardened_clay", 172),
   ("coal_block", 173),
   ("packed_ice", 174),
   ("red_sandstone", 179),
   ("deepslate", 1),
   ("tuff", 1),
   ("calcite", 1),
   ("copper_ore", 15),
   ("deepslate_copper_ore", 15)]

/-- `getBlockIdFromName`: table lookup on the stripped name, defaulting
to 1 (stone); the table holds no zero values, so `|| 1` is a plain
default. -/
def getBlockIdFromName (nm : String) : Nat :=
  ((blockNameMap.find? (fun e => e.1 = cleanBlockName nm)).map (fun e => e.2)).getD 1

/-- A Block Record (`BlockData` in the source). -/
structure BlockRec where
  position : Int × Int × Int
  blockId : Nat
  blockData : Nat
  lighting : Nat
  biome : Nat
  blockName : Option String
  properties : Option (List (String × String))
deriving DecidableEq, Repr

/-- World position of section-local block index `i`:
`x = i & 0xf`, `y = (i >> 8) + yOffset`, `z = (i >> 4) & 0xf`. -/
def blockPosition (xOffset zOffset yOffset : Int) (i : Nat) : Int × Int × Int :=
  ((i % 16 : Nat) + xOffset, (i / 256 : Nat) + yOffset, (i / 16 % 16 : Nat) + zOffset)

/-- The record pushed for a named block in the 1.18+ fill loops. -/
def fillRecord (xOffset zOffset yOffset : Int) (nm : String) (i : Nat) : BlockRec :=
  { position := blockPosition xOffset zOffset yOffset i
    blockId := getBlockIdFromName nm
    blockData := 0
    lighting := 15
    biome := 4
    blockName := some (cleanBlockName nm)
    properties := none }

/-- The whole-section fill used by both degenerate 1.18+ cases
(`if (blockName && blockName !== 'minecraft:air' && blockName !== 'air')`):
4096 records of the given block, or none at all when the name is missing,
falsy (the empty string), or air. -/
def fillSection (xOffset zOffset yOffset : Int) (bn : Option String) : List BlockRec :=
  match bn with
  | some nm =>
    if nm ≠ "" ∧ nm ≠ "minecraft:air" ∧ nm ≠ "air" then
      (List.range 4096).map (fillRecord xOffset zOffset yOffset nm)
    else []
  | none => []

/-- One step of the packed 1.18+ loop body for block index `i`:
`none` models each `continue`. -/
def packedStep (xOffset zOffset yOffset : Int) (palette : List PaletteEntry)
    (ws : List Int) (i : Nat) : Option BlockRec :=
  let bpe := bitsPerBlock palette.length
  let bpl := blocksPerLong palette.length
  match ws.get? (i / bpl) with
  | none => none
  | some w =>
    let paletteIndex := ((w / 2 ^ (i % bpl * bpe)) % 2 ^ bpe).toNat
    if h : paletteIndex < palette.length then
      match blockNameOfEntry (palette.get ⟨paletteIndex, h⟩) with
      | none => none
      | some nm =>
        -- `if (!blockName || blockName === 'minecraft:air' || blockName === 'air') continue;`
        -- — a missing name and the falsy empty string are both skipped.
        if nm = "" ∨ nm = "minecraft:air" ∨ nm = "air" then none
        else some
          { position := blockPosition xOffset zOffset yOffset i
            blockId := getBlockIdFromName nm
            blockData := 0
            lighting := 15
            biome := 4
            blockName := some (cleanBlockName nm)
            properties := propsOfEntry (palette.get ⟨paletteIndex, h⟩) }
    else none

/-- The `section.block_states` branch of `extractBlocks` for one section:
an empty palette emits nothing (the inner `palette.length === 1` test is
unreachable there and translated as written); a non-empty palette with a
missing or empty `data` array fills the section with `palette[0]`; and
otherwise the packed loop runs over all 4096 block indices. -/
def extract118Section (xOffset zOffset : Int) (sectionY : Int)
    (palette : List PaletteEntry) (data : Option (List Int)) : List BlockRec :=
  let yOffset := sectionY * 16
  if palette.length = 0 then
    if palette.length = 1 then
      fillSection xOffset zOffset yOffset (palette.head?.bind blockNameOfEntry)
    else []
  else if data = none ∨ data = some [] then
    fillSection xOffset zOffset yOffset (palette.head?.bind blockNameOfEntry)
  else
    (List.range 4096).filterMap
      (packedStep xOffset zOffset yOffset palette (data.getD []))

/-- C6 counterexample: the claim says every non-air `palette[0]` name
fills 4096 records, but the fill guard
`if (blockName && ...)` also rejects a falsy name: a palette entry whose
`Name` is the empty string — which is not `minecraft:air`/`air` — emits
zero records, not 4096. -/
theorem C6_empty_name_counterexample :
    blockNameOfEntry (PaletteEntry.obj (some "") none) = some "" ∧
    ("" ≠ "minecraft:air" ∧ "" ≠ "air") ∧
    extract118Section 0 0 4 [PaletteEntry.obj (some "") none] none = [] :=
  ⟨rfl, by refine ⟨by decide, by decide⟩, rfl⟩

/-- C6 (amended): for a 1.18+ section whose `block_states` carries a
palette of length ≥ 1 but a missing or empty data array, `extractBlocks`
emits exactly 4096 Block Records — one per section position, each
resolved to `palette[0]`'s block name — when that name is non-empty and
not air, and exactly zero records when it is the (falsy) empty string or
`minecraft:air`/`air`; an empty palette also emits zero records. -/
theorem C6_degenerate_section (xOffset zOffset sectionY : Int)
    (palette : List PaletteEntry) (data : Option (List Int))
    (hple : 1 ≤ palette.length) (hdata : data = none ∨ data = some []) :
    (∀ nm, palette.head?.bind blockNameOfEntry = some nm →
      (nm ≠ "" ∧ nm ≠ "minecraft:air" ∧ nm ≠ "air" →
        (extract118Section xOffset zOffset sectionY palette data).length = 4096 ∧
        (extract118Section xOffset zOffset sectionY palette data).map
          (fun b => b.position) =
          (List.range 4096).map (blockPosition xOffset zOffset (sectionY * 16)) ∧
        ∀ b ∈ extract118Section xOffset zOffset sectionY palette data,
          b.blockName = some (cleanBlockName nm)) ∧
      (nm = "" ∨ nm = "minecraft:air" ∨ nm = "air" →
        extract118Section xOffset zOffset sectionY palette data = [])) ∧
    (∀ pal2 : List PaletteEntry, pal2.length = 0 →
      extract118Section xOffset zOffset sectionY pal2 data = []) := by
  constructor
  · intro nm hnm
    have hne : ¬ palette.length = 0 := by omega
    have hunf : extract118Section xOffset zOffset sectionY palette data =
        fillSection xOffset zOffset (sectionY * 16)
          (palette.head?.bind blockNameOfEntry) := by
      rw [extract118Section, if_neg hne, if_pos hdata]
    constructor
    · intro hair
      rw [hunf, hnm, fillSection, if_pos hair]
      refine ⟨by simp, by simp [fillRecord], ?_⟩
      intro b hb
      rcases List.mem_map.mp hb with ⟨j, _, rfl⟩
      rfl
    · intro hair
      rw [hunf, hnm, fillSection]
      have : ¬ (nm ≠ "" ∧ nm ≠ "minecraft:air" ∧ nm ≠ "air") := by tauto
      rw [if_neg this]
  · intro pal2 h0
    rw [extract118Section, if_pos h0]
    have h1 : ¬ pal2.length = 1 := by omega
    rw [if_neg h1]

/-- C6 witness: a stone-filled section with no data array yields 4096
records, each named `stone`. -/
theorem C6_degenerate_section_witness :
    (extract118Section 0 0 4 [PaletteEntry.obj (some "minecraft:stone") none]
      none).length = 4096 ∧
    ∀ b ∈ extract118Section 0 0 4 [PaletteEntry.obj (some "minecraft:stone") none]
      none, b.blockName = some (cleanBlockName "minecraft:stone") :=
  ⟨(((C6_degenerate_section 0 0 4 [PaletteEntry.obj (some "minecraft:stone") none]
      none (by simp) (Or.inl rfl)).1 "minecraft:stone" rfl).1
      (by refine ⟨by decide, by decide, by decide⟩)).1,
    (((C6_degenerate_section 0 0 4 [PaletteEntry.obj (some "minecraft:stone") none]
      none (by simp) (Or.inl rfl)).1 "minecraft:stone" rfl).1
      (by refine ⟨by decide, by decide, by decide⟩)).2.2⟩

/-! ## The NBT tree model (src/unnamed/part_003, parser/tree modules)

### String collation

Compound children are ordered with `a.name.localeCompare(b.name)`.
`String.prototype.localeCompare` is a host function; it is modelled here
by the ECMA-402 default (CLDR root) collation restricted to the ASCII
range: strings compare primarily by their case-folded characters and,
only when all of those agree, by case, with lowercase before uppercase.
The two weight sequences are joined by a `0` separator (every primary
weight is positive), giving a single lexicographic key. -/

/-- Primary collation weight of a character (case-insensitive). -/
def collPrim (c : Char) : Nat := c.toLower.toNat + 1

/-- Tertiary collation weight: lowercase (unchanged by case folding)
before uppercase. -/
def collTert (c : Char) : Nat := if c.toLower = c then 0 else 1

/-- Collation key: primary weights, separator, tertiary weights. -/
def collKey (s : String) : List Nat := s.data.map collPrim ++ 0 :: s.data.map collTert

/-- Lexicographic comparison of weight sequences. -/
def lexCmpN : List Nat → List Nat → Ordering
  | [], [] => .eq
  | [], _ :: _ => .lt
  | _ :: _, [] => .gt
  | a :: as, b :: bs => if a < b then .lt else if b < a then .gt else lexCmpN as bs

theorem lexCmpN_eq_iff (xs ys : List Nat) : lexCmpN xs ys = .eq ↔ xs = ys := by
  induction xs generalizing ys with
  | nil => cases ys <;> simp [lexCmpN]
  | cons a as ih =>
    cases ys with
    | nil => simp [lexCmpN]
    | cons b bs =>
      rcases Nat.lt_trichotomy a b with h | h | h
      · simp [lexCmpN, h]
        omega
      · subst h
        simp [lexCmpN, ih]
      · rw [lexCmpN, if_neg (by omega), if_pos h]
        simp
        omega

theorem lexCmpN_swap (xs ys : List Nat) : lexCmpN ys xs = (lexCmpN xs ys).swap := by
  induction xs generalizing ys with
  | nil => cases ys <;> simp [lexCmpN, Ordering.swap]
  | cons a as ih =>
    cases ys with
    | nil => simp [lexCmpN, Ordering.swap]
    | cons b bs =>
      rcases Nat.lt_trichotomy a b with h | h | h
      · rw [lexCmpN, if_neg (by omega), if_pos h, lexCmpN, if_pos h]
        rfl
      · subst h
        simp [lexCmpN, ih]
      · rw [lexCmpN, if_pos h, lexCmpN, if_neg (by omega), if_pos h]
        rfl

theorem lexCmpN_le_trans {xs ys zs : List Nat}
    (h1 : lexCmpN xs ys ≠ .gt) (h2 : lexCmpN ys zs ≠ .gt) :
    lexCmpN xs zs ≠ .gt := by
  induction xs generalizing ys zs with
  | nil => cases zs <;> simp [lexCmpN]
  | cons a as ih =>
    cases ys with
    | nil => simp [lexCmpN] at h1
    | cons b bs =>
      cases zs with
      | nil => simp [lexCmpN] at h2
      | cons c cs =>
        rcases Nat.lt_trichotomy a b with hab | hab | hab
        · rcases Nat.lt_trichotomy b c with hbc | hbc | hbc
          · rw [lexCmpN, if_pos (by omega)]
            simp
          · subst hbc
            rw [lexCmpN, if_pos hab]
            simp
          · rw [lexCmpN, if_neg (by omega), if_pos hbc] at h2
            exact absurd rfl h2
        · subst hab
          rw [lexCmpN, if_neg (lt_irrefl a), if_neg (lt_irrefl a)] at h1
          rcases Nat.lt_trichotomy a c with hac | hac | hac
          · rw [lexCmpN, if_pos hac]
            simp
          · subst hac
            rw [lexCmpN, if_neg (lt_irrefl a), if_neg (lt_irrefl a)] at h2 ⊢
            exact ih h1 h2
          · rw [lexCmpN, if_neg (by omega), if_pos hac] at h2
            exact absurd rfl h2
        · rw [lexCmpN, if_neg (by omega), if_pos hab] at h1
          exact absurd rfl h1

/-- The sign of `a.localeCompare(b)` under the modelled collation, as a
non-strict comparator: `true` iff `a.localeCompare(b) <= 0`. -/
def localeLe (a b : String) : Bool :=
  match lexCmpN (collKey a) (collKey b) with
  | .gt => false
  | _ => true

theorem localeLe_iff (a b : String) :
    localeLe a b = true ↔ lexCmpN (collKey a) (collKey b) ≠ .gt := by
  rw [localeLe]
  cases h : lexCmpN (collKey a) (collKey b) <;> simp [h]

theorem localeLe_total (a b : String) : localeLe a b = true ∨ localeLe b a = true := by
  rw [localeLe_iff, localeLe_iff]
  cases h : lexCmpN (collKey a) (collKey b) with
  | lt =>
    left; simp [h]
  | eq =>
    left; simp [h]
  | gt =>
    right
    rw [lexCmpN_swap, h]
    simp [Ordering.swap]

theorem localeLe_trans {a b c : String} (h1 : localeLe a b = true)
    (h2 : localeLe b c = true) : localeLe a c = true := by
  rw [localeLe_iff] at h1 h2 ⊢
  exact lexCmpN_le_trans h1 h2

/-! ### The stable sort

`Array.prototype.sort` with a consistent comparator produces the unique
stable order; it is modelled by a left-to-right stable insertion sort
(each element is inserted after every earlier element the comparator does
not place strictly after it). -/

/-- Inserts `a` after every element `b` of the (sorted) list with
`le b a`. -/
def insertSorted (le : α → α → Bool) (a : α) : List α → List α
  | [] => [a]
  | b :: l => if le b a then b :: insertSorted le a l else a :: b :: l

/-- Left fold of `insertSorted` over the input, keeping the already
sorted prefix in `acc`. -/
def jsSortAux (le : α → α → Bool) : List α → List α → List α
  | acc, [] => acc
  | acc, x :: rest => jsSortAux le (insertSorted le x acc) rest

/-- The model of `Array.prototype.sort(cmp)` for a boolean `cmp ≤ 0`
comparator. -/
def jsSortBy (le : α → α → Bool) (xs : List α) : List α := jsSortAux le [] xs

theorem mem_insertSorted (le : α → α → Bool) (a y : α) (l : List α) :
    y ∈ insertSorted le a l ↔ y = a ∨ y ∈ l := by
  induction l with
  | nil => simp [insertSorted]
  | cons b l ih =>
    rw [insertSorted]
    by_cases h : le b a = true
    · simp [h, ih]
      tauto
    · simp [h]

theorem mem_jsSortAux (le : α → α → Bool) (acc xs : List α) (y : α) :
    y ∈ jsSortAux le acc xs ↔ y ∈ acc ∨ y ∈ xs := by
  induction xs generalizing acc with
  | nil => simp [jsSortAux]
  | cons x rest ih =>
    rw [jsSortAux, ih, mem_insertSorted]
    simp
    tauto

theorem mem_jsSortBy (le : α → α → Bool) (xs : List α) (y : α) :
    y ∈ jsSortBy le xs ↔ y ∈ xs := by
  rw [jsSortBy, mem_jsSortAux]
  simp

theorem sizeOf_insertSorted [SizeOf α] (le : α → α → Bool) (a : α) (l : List α) :
    sizeOf (insertSorted le a l) = 1 + sizeOf a + sizeOf l := by
  induction l with
  | nil => simp [insertSorted]
  | cons b l ih =>
    rw [insertSorted]
    by_cases h : le b a = true
    · simp [h, ih]
      omega
    · simp [h]

theorem sizeOf_jsSortAux [SizeOf α] (le : α → α → Bool) (acc xs : List α) :
    sizeOf (jsSortAux le acc xs) + 1 = sizeOf acc + sizeOf xs := by
  induction xs generalizing acc with
  | nil => simp [jsSortAux]
  | cons x rest ih =>
    rw [jsSortAux, ih, sizeOf_insertSorted]
    simp
    omega

theorem sizeOf_jsSortBy [SizeOf α] (le : α → α → Bool) (xs : List α) :
    sizeOf (jsSortBy le xs) = sizeOf xs := by
  have h := sizeOf_jsSortAux le ([] : List α) xs
  simp at h
  rw [jsSortBy]
  omega

theorem pairwise_insertSorted (le : α → α → Bool)
    (htot : ∀ a b, le a b = true ∨ le b a = true)
    (htr : ∀ a b c, le a b = true → le b c = true → le a c = true)
    (a : α) (l : List α) (hl : l.Pairwise (le · · = true)) :
    (insertSorted le a l).Pairwise (le · · = true) := by
  induction l with
  | nil => simp [insertSorted]
  | cons b l ih =>
    rw [List.pairwise_cons] at hl
    rw [insertSorted]
    by_cases h : le b a = true
    · rw [if_pos h, List.pairwise_cons]
      refine ⟨?_, ih hl.2⟩
      intro y hy
      rcases (mem_insertSorted le a y l).mp hy with rfl | hy
      · exact h
      · exact hl.1 y hy
    · rw [if_neg h, List.pairwise_cons]
      have hab : le a b = true := by
        rcases htot a b with h2 | h2
        · exact h2
        · exact absurd h2 h
      refine ⟨?_, List.pairwise_cons.mpr hl⟩
      intro y hy
      rcases List.mem_cons.mp hy with rfl | hy
      · exact hab
      · exact htr a b y hab (hl.1 y hy)

theorem pairwise_jsSortAux (le : α → α → Bool)
    (htot : ∀ a b, le a b = true ∨ le b a = true)
    (htr : ∀ a b c, le a b = true → le b c = true → le a c = true)
    (acc xs : List α) (hacc : acc.Pairwise (le · · = true)) :
    (jsSortAux le acc xs).Pairwise (le · · = true) := by
  induction xs generalizing acc with
  | nil => exact hacc
  | cons x rest ih =>
    rw [jsSortAux]
    exact ih _ (pairwise_insertSorted le htot htr x acc hacc)

theorem pairwise_jsSortBy (le : α → α → Bool)
    (htot : ∀ a b, le a b = true ∨ le b a = true)
    (htr : ∀ a b c, le a b = true → le b c = true → le a c = true)
    (xs : List α) : (jsSortBy le xs).Pairwise (le · · = true) :=
  pairwise_jsSortAux le htot htr [] xs (by simp)

/-! ### The data model (src/unnamed/part_004, types module)

`NbtValue` is the closed sum of the value shapes of the source's
`NbtValue` union: one constructor for each runtime representation.
Number-like leaf payloads (`number` for Byte/Short/Int/Float/Double,
`bigint` for Long) and the typed-array leaves keep their contents as
integers; the tree claims never compute with them.  A JavaScript object
(`NbtCompound`) is an insertion-ordered association list with unique
keys. -/

inductive TagType where
  | End
  | Byte
  | Short
  | Int
  | Long
  | Float
  | Double
  | ByteArray
  | String
  | List
  | Compound
  | IntArray
  | LongArray
deriving DecidableEq, Repr

inductive NbtValue where
  | numV (x : Int)
  | strV (s : String)
  | longV (x : Int)
  | byteArrV (xs : List Int)
  | intArrV (xs : List Int)
  | longArrV (xs : List Int)
  | listV (et : TagType) (xs : List NbtValue)
  | compoundV (m : List (String × TagType × NbtValue))

/-- The source's `NbtTreeNode` without its two navigation-only fields:
the generated `id` (no claim concerns ids) and the weak `parent`
back-reference (it carries no data; every algorithm below reaches nodes
from the root). -/
inductive NbtNode where
  | mk (name : String) (ty : TagType) (value : NbtValue) (path : List String)
      (children : List NbtNode)

def NbtNode.name : NbtNode → String
  | .mk n _ _ _ _ => n

def NbtNode.ty : NbtNode → TagType
  | .mk _ t _ _ _ => t

def NbtNode.value : NbtNode → NbtValue
  | .mk _ _ v _ _ => v

def NbtNode.path : NbtNode → List String
  | .mk _ _ _ p _ => p

def NbtNode.children : NbtNode → List NbtNode
  | .mk _ _ _ _ cs => cs

@[simp] theorem NbtNode.name_mk (n t v p cs) : (NbtNode.mk n t v p cs).name = n := rfl
@[simp] theorem NbtNode.ty_mk (n t v p cs) : (NbtNode.mk n t v p cs).ty = t := rfl
@[simp] theorem NbtNode.value_mk (n t v p cs) : (NbtNode.mk n t v p cs).value = v := rfl
@[simp] theorem NbtNode.path_mk (n t v p cs) : (NbtNode.mk n t v p cs).path = p := rfl
@[simp] theorem NbtNode.children_mk (n t v p cs) :
    (NbtNode.mk n t v p cs).children = cs := rfl

/-! ### cloneValue / cloneTree (src/unnamed/part_003, lines 521-568)

`cloneValue` copies array-backed leaves, maps itself over List elements at
the list's declared element type, and rebuilds Compound entries at each
entry's own type; every other `(type, value)` combination returns the
value unchanged (the source's `default` branch; a container-typed node
whose value has a different shape only arises in ill-formed trees and is
modelled by the same fall-through).  `cloneTree` rebuilds a node
field-by-field with a cloned value and cloned children, dropping the
`parent` chain (re-established by the caller). -/

mutual

def cloneValue : TagType → NbtValue → NbtValue
  | .ByteArray, .byteArrV xs => .byteArrV xs
  | .IntArray, .intArrV xs => .intArrV xs
  | .LongArray, .longArrV xs => .longArrV xs
  | .List, .listV et xs => .listV et (cloneValueList et xs)
  | .Compound, .compoundV m => .compoundV (cloneValueEntries m)
  | _, v => v

def cloneValueList : TagType → List NbtValue → List NbtValue
  | _, [] => []
  | et, x :: xs => cloneValue et x :: cloneValueList et xs

def cloneValueEntries : List (String × TagType × NbtValue) →
    List (String × TagType × NbtValue)
  | [] => []
  | (k, t, v) :: rest => (k, t, cloneValue t v) :: cloneValueEntries rest

end

mutual

def cloneTree : NbtNode → NbtNode
  | .mk n t v p cs => .mk n t (cloneValue t v) p (cloneForest cs)

def cloneForest : List NbtNode → List NbtNode
  | [] => []
  | c :: cs => cloneTree c :: cloneForest cs

end

mutual

theorem cloneValue_self (t : TagType) (v : NbtValue) : cloneValue t v = v := by
  cases t <;> cases v <;>
    simp [cloneValue, cloneValueList_self, cloneValueEntries_self]

theorem cloneValueList_self (et : TagType) (xs : List NbtValue) :
    cloneValueList et xs = xs := by
  cases xs with
  | nil => rfl
  | cons x rest => simp [cloneValueList, cloneValue_self, cloneValueList_self]

theorem cloneValueEntries_self (m : List (String × TagType × NbtValue)) :
    cloneValueEntries m = m := by
  cases m with
  | nil => rfl
  | cons e rest =>
    obtain ⟨k, t, v⟩ := e
    simp [cloneValueEntries, cloneValue_self, cloneValueEntries_self]

end

mutual

theorem cloneTree_self (nd : NbtNode) : cloneTree nd = nd := by
  cases nd with
  | mk n t v p cs => simp [cloneTree, cloneValue_self, cloneForest_self]

theorem cloneForest_self (cs : List NbtNode) : cloneForest cs = cs := by
  cases cs with
  | nil => rfl
  | cons c rest => simp [cloneForest, cloneTree_self, cloneForest_self]

end

/-! ### findNodeByPath (src/unnamed/part_003, lines 571-584)

The function returns the root when the path is empty or is the singleton
equal to the root's name; otherwise it walks the path with the loop
starting at index 1, so the first segment is never compared and a
singleton path falls through the loop to the root as well.  At each step
it requires `current.children` and takes the first child whose name
matches (a leaf's absent `children` behaves like the empty list: the
lookup fails either way). -/

def walkFind : NbtNode → List String → Option NbtNode
  | cur, [] => some cur
  | cur, s :: rest =>
    match cur.children.find? (fun c => c.name == s) with
    | none => none
    | some c => walkFind c rest

def findNodeByPath (root : NbtNode) (path : List String) : Option NbtNode :=
  if path.length = 0 ∨ (path.length = 1 ∧ path.head? = some root.name) then some root
  else walkFind root (path.drop 1)

/-- Whether every segment matches a child name while walking down from
`cur` (the resolution condition of the claim, stated independently). -/
def pathResolves : NbtNode → List String → Bool
  | _, [] => true
  | cur, s :: rest =>
    match cur.children.find? (fun c => c.name == s) with
    | none => false
    | some c => pathResolves c rest

theorem walkFind_isSome (cur : NbtNode) (p : List String) :
    (walkFind cur p).isSome = pathResolves cur p := by
  induction p generalizing cur with
  | nil => rfl
  | cons s rest ih =>
    rw [walkFind, pathResolves]
    cases h : cur.children.find? (fun c => c.name == s) with
    | none => rfl
    | some c => exact ih c

/-! ### In-place mutation at a path

The edit operations mutate one node of an (already cloned) tree that they
locate with `findNodeByPath`.  Purely, that is: rebuild the tree with a
transformation `F` applied at the located node.  `modifyAt` navigates
exactly as `findNodeByPath` does — an empty or singleton path targets the
root itself, a longer path walks segments 1.. matching the first child of
each name — and leaves the tree unchanged when the lookup fails (the
sources guard their mutations with `if (node)` / `if (!parent) return`). -/

mutual

def walkMod (F : NbtNode → NbtNode) : NbtNode → List String → NbtNode
  | cur, [] => F cur
  | .mk n t v p cs, s :: rest => .mk n t v p (walkModKids F s rest cs)
termination_by cur path => (path.length, 0)

def walkModKids (F : NbtNode → NbtNode) (s : String) (rest : List String) :
    List NbtNode → List NbtNode
  | [] => []
  | c :: cs =>
    if c.name == s then walkMod F c rest :: cs
    else c :: walkModKids F s rest cs
termination_by cs => (rest.length, cs.length + 1)

end

def modifyAt (root : NbtNode) (path : List String) (F : NbtNode → NbtNode) : NbtNode :=
  if path.length ≤ 1 then F root else walkMod F root (path.drop 1)

/-! ### Compound-object and list-index primitives -/

/-- `compound[name] = tag`: replaces the value at an existing key in
place, otherwise appends the new entry (JavaScript object insertion
order). -/
def setKey (m : List (String × TagType × NbtValue)) (k : String)
    (t : TagType) (v : NbtValue) : List (String × TagType × NbtValue) :=
  match m with
  | [] => [(k, t, v)]
  | e :: rest => if e.1 == k then (k, t, v) :: rest else e :: setKey rest k t v

/-- `delete compound[name]`. -/
def delKey (m : List (String × TagType × NbtValue)) (k : String) :
    List (String × TagType × NbtValue) :=
  m.filter (fun e => ¬ e.1 == k)

def digitsVal : List Char → Nat → Option Nat
  | [], acc => some acc
  | c :: rest, acc =>
    if 48 ≤ c.toNat ∧ c.toNat ≤ 57 then digitsVal rest (acc * 10 + (c.toNat - 48))
    else none

/-- `parseInt` as applied to List child names.  Such names are canonical
decimal indices; for any other string JavaScript yields `NaN`, which the
callers' `splice`/index uses coerce to 0, modelled by `.getD 0` at the
use sites (a partially numeric or negative string, where `parseInt`
itself would return a number, does not occur as a child name). -/
def parseIndex (s : String) : Option Nat :=
  if s.data.isEmpty then none else digitsVal s.data 0

/-! ### updateParentValues (src/unnamed/part_003, lines 587-604)

For `i` from `path.length - 1` down to 1 it re-derives the value entry of
the node at `path.take i` from its child at `path.take (i + 1)`: a
Compound parent gets `compound[child.name] = {child.type, child.value}`, a
List parent gets `list.value[parseInt(child.name)] = child.value`.  Both
lookups read the current tree; a failed lookup skips the step.  In the
clone every node's value is a separate object, so each level must be (and
is) rewritten on the way up. -/

def syncValue (child : NbtNode) (t : TagType) (v : NbtValue) : NbtValue :=
  match t, v with
  | .Compound, .compoundV m => .compoundV (setKey m child.name child.ty child.value)
  | .List, .listV et xs =>
    .listV et (xs.set ((parseIndex child.name).getD 0) child.value)
  | _, v2 => v2

def syncChildEntry (child : NbtNode) : NbtNode → NbtNode
  | .mk n t v p cs => .mk n t (syncValue child t v) p cs

def updParentStep (path : List String) (root : NbtNode) (i : Nat) : NbtNode :=
  match findNodeByPath root (path.take (i + 1)) with
  | none => root
  | some child => modifyAt root (path.take i) (syncChildEntry child)

def updLoop (path : List String) : Nat → NbtNode → NbtNode
  | 0, r => r
  | i + 1, r => updLoop path i (updParentStep path r (i + 1))

def updateParentValues (root : NbtNode) (path : List String) : NbtNode :=
  updLoop path (path.length - 1) root

/-! ### updateNodeValue (src/unnamed/part_003, lines 501-518) -/

def setValue (v : NbtValue) : NbtNode → NbtNode
  | .mk n t _ p cs => .mk n t v p cs

def updateNodeValue (root : NbtNode) (nodePath : List String)
    (newValue : NbtValue) : NbtNode :=
  match findNodeByPath (cloneTree root) nodePath with
  | none => cloneTree root
  | some _ =>
    updateParentValues (modifyAt (cloneTree root) nodePath (setValue newValue)) nodePath

/-! ### addTag (src/unnamed/part_003, lines 607-645)

A Compound parent gets `compound[name] = {type, value}` and the new child
node pushed and the children re-sorted by `localeCompare` of names — the
push is unconditional, so an existing entry of the same name is
overwritten in the value but its child node stays.  A List parent appends
the value and a child named `String(children.length)` (the length before
the push).  The fresh node carries no `children` of its own.  A parent of
any other type is left unchanged (the source has no branch for it), and
`updateParentValues` then runs on the parent path. -/

def addChildAction (nm : String) (t : TagType) (v : NbtValue)
    (parentPath : List String) : NbtNode → NbtNode
  | .mk pn pt pv pp cs =>
    match pt, pv with
    | .Compound, .compoundV m =>
      .mk pn pt (.compoundV (setKey m nm t v)) pp
        (jsSortBy (fun a b => localeLe a.name b.name)
          (cs ++ [.mk nm t v (parentPath ++ [nm]) []]))
    | .List, .listV et xs =>
      .mk pn pt (.listV et (xs ++ [v])) pp
        (cs ++ [.mk (toString cs.length) t v (parentPath ++ [toString cs.length]) []])
    | pt2, pv2 => .mk pn pt2 pv2 pp cs

def addTag (root : NbtNode) (parentPath : List String) (nm : String)
    (t : TagType) (v : NbtValue) : NbtNode :=
  match findNodeByPath (cloneTree root) parentPath with
  | none => cloneTree root
  | some _ =>
    updateParentValues
      (modifyAt (cloneTree root) parentPath (addChildAction nm t v parentPath))
      parentPath

/-! ### deleteTag (src/unnamed/part_003, lines 648-676)

A no-op on paths of length ≤ 1 (the document root cannot be deleted).  A
Compound parent drops the key and filters out every child of that name; a
List parent splices index `parseInt(name)` out of both the value and the
children and renumbers the remaining children `0..n-2` with fresh
paths. -/

def renumberKids (parentPath : List String) : Nat → List NbtNode → List NbtNode
  | _, [] => []
  | i, .mk _ t v _ cs :: rest =>
    .mk (toString i) t v (parentPath ++ [toString i]) cs ::
      renumberKids parentPath (i + 1) rest

def deleteChildAction (nodeName : String) (parentPath : List String) :
    NbtNode → NbtNode
  | .mk pn pt pv pp cs =>
    match pt, pv with
    | .Compound, .compoundV m =>
      .mk pn pt (.compoundV (delKey m nodeName)) pp
        (cs.filter (fun c => ¬ c.name == nodeName))
    | .List, .listV et xs =>
      .mk pn pt (.listV et (xs.eraseIdx ((parseIndex nodeName).getD 0))) pp
        (renumberKids parentPath 0 (cs.eraseIdx ((parseIndex nodeName).getD 0)))
    | pt2, pv2 => .mk pn pt2 pv2 pp cs

def deleteTag (root : NbtNode) (nodePath : List String) : NbtNode :=
  if nodePath.length ≤ 1 then root
  else
    match findNodeByPath (cloneTree root) nodePath.dropLast with
    | none => cloneTree root
    | some _ =>
      updateParentValues
        (modifyAt (cloneTree root) nodePath.dropLast
          (deleteChildAction ((nodePath.getLast?).getD "") nodePath.dropLast))
        nodePath.dropLast

/-! ### renameTag (src/unnamed/part_003, lines 679-708)

A no-op on paths of length ≤ 1, and a silent no-op (returning the clone)
unless both the parent and the node resolve and the parent is a Compound.
Otherwise the entry moves from the old key to the new one (keeping the
new key's position if it already existed), the first child of the old
name is renamed and repathed, and the children are re-sorted.  No
`updateParentValues` follows, and an entry for a child the compound value
does not contain cannot be moved (that case only arises in ill-formed
trees and leaves the value at the plain deletion). -/

def renameFirstKid (oldName newName : String) (parentPath : List String) :
    List NbtNode → List NbtNode
  | [] => []
  | .mk n t v p cs :: rest =>
    if n == oldName then .mk newName t v (parentPath ++ [newName]) cs :: rest
    else .mk n t v p cs :: renameFirstKid oldName newName parentPath rest

def renameValue (oldName newName : String) : NbtValue → NbtValue
  | NbtValue.compoundV m =>
    match m.find? (fun e => e.1 == oldName) with
    | some e => NbtValue.compoundV (setKey (delKey m oldName) newName e.2.1 e.2.2)
    | none => NbtValue.compoundV (delKey m oldName)
  | other => other

def renameChildAction (oldName newName : String) (parentPath : List String) :
    NbtNode → NbtNode
  | .mk pn pt pv pp cs =>
    .mk pn pt (renameValue oldName newName pv) pp
      (jsSortBy (fun a b => localeLe a.name b.name)
        (renameFirstKid oldName newName parentPath cs))

def renameTag (root : NbtNode) (nodePath : List String) (newName : String) : NbtNode :=
  if nodePath.length ≤ 1 then root
  else
    match findNodeByPath (cloneTree root) nodePath.dropLast,
        findNodeByPath (cloneTree root) nodePath with
    | some parent, some _ =>
      if parent.ty = .Compound then
        modifyAt (cloneTree root) nodePath.dropLast
          (renameChildAction ((nodePath.getLast?).getD "") newName nodePath.dropLast)
      else cloneTree root
    | _, _ => cloneTree root

/-! ## C2: value/children synchronisation under mutation -/

/-- The keys of a Compound value, in insertion order. -/
def compoundKeys : NbtValue → List String
  | .compoundV m => m.map (fun e => e.1)
  | _ => []

/-- A well-formed one-entry document: a Compound root `root` holding a
Byte entry `x`, with value and children in sync. -/
def c2Root : NbtNode :=
  .mk "root" .Compound (.compoundV [("x", .Byte, .numV 1)]) ["root"]
    [.mk "x" .Byte (.numV 1) ["root", "x"] []]

/-- C2: `addTag` on a Compound parent that already contains an entry of
the given name overwrites the entry in the parent's value but pushes the
new child node unconditionally — the result has two children named `x`
(the stale one and the new one) against a single key `x` in the value, so
the value/children synchronisation invariant is broken. -/
theorem C2_addTag_duplicate_child :
    (addTag c2Root ["root"] "x" .Byte (.numV 2)).children.map NbtNode.name =
      ["x", "x"] ∧
    compoundKeys (addTag c2Root ["root"] "x" .Byte (.numV 2)).value = ["x"] ∧
    (addTag c2Root ["root"] "x" .Byte (.numV 2)).children.map NbtNode.value =
      [.numV 1, .numV 2] :=
  ⟨rfl, rfl, rfl⟩

/-! ## C4: findNodeByPath resolution -/

/-- A two-node document for the path-resolution counterexample. -/
def c4Root : NbtNode :=
  .mk "root" .Compound (.compoundV [("kid", .Byte, .numV 0)]) ["root"]
    [.mk "kid" .Byte (.numV 0) ["root", "kid"] []]

/-- C4 counterexample: the claim says a singleton path whose element
differs from the root's name resolves to `null`; in fact the walk loop
starts at index 1, so every singleton path falls through to the root:
`findNodeByPath` on `["bogus"]` returns the root itself. -/
theorem C4_singleton_counterexample :
    findNodeByPath c4Root ["bogus"] = some c4Root ∧ c4Root.name = "root" :=
  ⟨rfl, rfl⟩

/-- C4 (amended): `[]` and every singleton path (whatever its element)
resolve to the root itself; for a path of length ≥ 2 the first segment is
ignored and the result is `null` exactly when some later segment fails to
match a child name while walking down from the root. -/
theorem C4_findNodeByPath_resolution (root : NbtNode) (path : List String) :
    (path = [] → findNodeByPath root path = some root) ∧
    (∀ s, path = [s] → findNodeByPath root path = some root) ∧
    (∀ s rest, path = s :: rest → rest ≠ [] →
      (findNodeByPath root path = none ↔ pathResolves root rest = false)) := by
  refine ⟨?_, ?_, ?_⟩
  · rintro rfl
    simp [findNodeByPath]
  · rintro s rfl
    by_cases h : [s].head? = some root.name
    · simp [findNodeByPath, h]
    · rw [findNodeByPath, if_neg (by simpa using h)]
      rfl
  · rintro s rest rfl hrest
    rw [findNodeByPath, if_neg (by simp; intro h; exact absurd h hrest)]
    have hs := walkFind_isSome root rest
    constructor
    · intro h
      rw [List.drop_one, List.tail_cons] at h
      rw [← hs, h]
      rfl
    · intro h
      rw [List.drop_one, List.tail_cons]
      rw [← hs] at h
      cases hw : walkFind root rest with
      | none => rfl
      | some c => rw [hw] at h; cases h

/-- C4 witness: the amended resolution at a concrete root and the
two-segment path `["root", "nope"]`, whose second segment matches no
child. -/
theorem C4_findNodeByPath_resolution_witness :
    findNodeByPath c4Root ["root", "nope"] = none ↔
      pathResolves c4Root ["nope"] = false :=
  (C4_findNodeByPath_resolution c4Root ["root", "nope"]).2.2 "root" ["nope"] rfl
    (by decide)

/-! ## C5: the edit operations leave the given root untouched

Every operation above first deep-clones the root (`cloneTree`) and
performs all of its mutations on that clone, never writing through the
original; in this pure embedding that discipline is visible as: each
operation is literally a function of `cloneTree root`, and `cloneTree`
rebuilds every node — name, type, value (with fresh copies of the
`Int8Array`/`Int32Array`/`BigInt64Array` leaf contents), path and
children — structurally identical to the original. -/

/-- C5: `cloneTree` (the mutation target of `updateNodeValue`, `addTag`,
`deleteTag` and `renameTag`) is a faithful deep copy: it preserves every
node's name, type, value, path and children exactly. -/
theorem C5_clone_preserves_structure (nd : NbtNode) : cloneTree nd = nd :=
  cloneTree_self nd

/-! ## C9: renameTag on a List child -/

/-- A document whose root Compound holds a one-element List `lst`. -/
def c9Root : NbtNode :=
  .mk "root" .Compound (.compoundV [("lst", .List, .listV .Byte [.numV 1])]) ["root"]
    [.mk "lst" .List (.listV .Byte [.numV 1]) ["root", "lst"]
      [.mk "0" .Byte (.numV 1) ["root", "lst", "0"] []]]

/-- C9 counterexample: the claim says renaming a List child fails fast
with a TypeMismatch error; the source instead hits
`parent.type !== TagType.Compound` and silently returns the clone — a
tree structurally equal to the input, with no error channel at all. -/
theorem C9_rename_list_child_counterexample :
    renameTag c9Root ["root", "lst", "0"] "renamed" = c9Root :=
  rfl

/-- C9 (amended): `renameTag` applied to a path whose immediate parent
resolves to a List node is a silent no-op: it returns a clone of the
root (structurally equal to it), and no error is raised (the function
has no error path). -/
theorem C9_rename_list_child_noop (root : NbtNode) (nodePath : List String)
    (newName : String) (p : NbtNode)
    (hp : findNodeByPath root nodePath.dropLast = some p) (hty : p.ty = .List) :
    renameTag root nodePath newName = root := by
  rw [renameTag]
  by_cases hlen : nodePath.length ≤ 1
  · rw [if_pos hlen]
  · rw [if_neg hlen, cloneTree_self, hp]
    cases hfull : findNodeByPath root nodePath with
    | none => rfl
    | some q =>
      have hnc : ¬ p.ty = TagType.Compound := by rw [hty]; decide
      exact if_neg hnc

/-- C9 witness: the no-op applied at the concrete List-parent path. -/
theorem C9_rename_list_child_noop_witness :
    renameTag c9Root ["root", "lst", "0"] "z" = c9Root :=
  C9_rename_list_child_noop c9Root ["root", "lst", "0"] "z"
    (.mk "lst" .List (.listV .Byte [.numV 1]) ["root", "lst"]
      [.mk "0" .Byte (.numV 1) ["root", "lst", "0"] []])
    rfl rfl

/-! ## C3: the Compound child-ordering invariant

### buildTreeNode (src/unnamed/part_003, lines 366-399)

A Compound's entries are sorted with `a.localeCompare(b)` on the keys and
then expanded recursively; a List's elements are expanded in order with
their indices as names; every other kind gets no children. -/

/-- The entry comparator `([a], [b]) => a.localeCompare(b)` of
`buildTreeNode`. -/
def entLe (a b : String × TagType × NbtValue) : Bool := localeLe a.1 b.1

/-- The child comparator `(a, b) => a.name.localeCompare(b.name)` used by
`addTag` and `renameTag`. -/
def nodeLe (a b : NbtNode) : Bool := localeLe a.name b.name

mutual

def buildTreeNode (nm : String) (t : TagType) (v : NbtValue)
    (path : List String) : NbtNode :=
  .mk nm t v (path ++ [nm])
    (match t, v with
     | .Compound, .compoundV m => buildEntNodes (jsSortBy entLe m) (path ++ [nm])
     | .List, .listV et xs => buildIdxNodes et (path ++ [nm]) 0 xs
     | _, _ => [])
termination_by (sizeOf v, 1)
decreasing_by
  · simp_wf
    rw [sizeOf_jsSortBy]
    omega
  · simp_wf
    omega

def buildEntNodes : List (String × TagType × NbtValue) → List String → List NbtNode
  | [], _ => []
  | (k, t, v) :: rest, p => buildTreeNode k t v p :: buildEntNodes rest p
termination_by m _ => (sizeOf m, 0)

def buildIdxNodes (et : TagType) (p : List String) : Nat → List NbtValue → List NbtNode
  | _, [] => []
  | i, x :: xs => buildTreeNode (toString i) et x p :: buildIdxNodes et p (i + 1) xs
termination_by _ xs => (sizeOf xs, 0)

end

theorem buildTreeNode_eq (nm : String) (t : TagType) (v : NbtValue)
    (p : List String) :
    buildTreeNode nm t v p =
      .mk nm t v (p ++ [nm])
        (match t, v with
         | .Compound, .compoundV m => buildEntNodes (jsSortBy entLe m) (p ++ [nm])
         | .List, .listV et xs => buildIdxNodes et (p ++ [nm]) 0 xs
         | _, _ => []) := by
  rw [buildTreeNode.eq_def]

theorem buildTreeNode_name (nm : String) (t : TagType) (v : NbtValue)
    (p : List String) : (buildTreeNode nm t v p).name = nm := by
  rw [buildTreeNode_eq]
  rfl

theorem buildEntNodes_names (m : List (String × TagType × NbtValue))
    (p : List String) :
    (buildEntNodes m p).map NbtNode.name = m.map (fun e => e.1) := by
  induction m with
  | nil => rw [buildEntNodes]; rfl
  | cons e rest ih =>
    obtain ⟨k, t, v⟩ := e
    rw [buildEntNodes]
    simp [buildTreeNode_name, ih]

/-! ### The orderedness predicates -/

/-- Adjacent-pair sortedness of a name list under the modelled
`localeCompare` order. -/
def sortedStrsB : List String → Bool
  | [] => true
  | [_] => true
  | a :: b :: rest => localeLe a b && sortedStrsB (b :: rest)

/-- A children list is name-sorted. -/
def sortedNamesB (cs : List NbtNode) : Bool := sortedStrsB (cs.map NbtNode.name)

mutual

def sortedTree : NbtNode → Bool
  | .mk _ t _ _ cs =>
    (if t = .Compound then sortedNamesB cs else true) && sortedForest cs

def sortedForest : List NbtNode → Bool
  | [] => true
  | c :: cs => sortedTree c && sortedForest cs

end

theorem sortedTree_mk (n : String) (t : TagType) (v : NbtValue)
    (p : List String) (cs : List NbtNode) :
    sortedTree (.mk n t v p cs) =
      ((if t = .Compound then sortedNamesB cs else true) && sortedForest cs) := by
  rw [sortedTree]

theorem sortedForest_iff (cs : List NbtNode) :
    sortedForest cs = true ↔ ∀ c ∈ cs, sortedTree c = true := by
  induction cs with
  | nil => simp [sortedForest]
  | cons c rest ih =>
    rw [sortedForest, Bool.and_eq_true, ih]
    simp

/-- Case-sensitive lexicographic (code-unit) string comparison — the
ordering the claim asserts. -/
def codeUnitLe (a b : String) : Bool :=
  match lexCmpN (a.data.map Char.toNat) (b.data.map Char.toNat) with
  | .gt => false
  | _ => true

/-- Adjacent-pair sortedness under code-unit comparison. -/
def codeUnitSortedStrs : List String → Bool
  | [] => true
  | [_] => true
  | a :: b :: rest => codeUnitLe a b && codeUnitSortedStrs (b :: rest)

/-! ### Pairwise/adjacent conversions -/

theorem sortedStrsB_of_pairwise {l : List String}
    (h : l.Pairwise (localeLe · · = true)) : sortedStrsB l = true := by
  induction l with
  | nil => rfl
  | cons a l ih =>
    cases l with
    | nil => rfl
    | cons b rest =>
      rw [List.pairwise_cons] at h
      rw [sortedStrsB, Bool.and_eq_true]
      exact ⟨h.1 b (by simp), ih h.2⟩

theorem pairwise_of_sortedStrsB {l : List String}
    (h : sortedStrsB l = true) : l.Pairwise (localeLe · · = true) := by
  induction l with
  | nil => simp
  | cons a l ih =>
    cases l with
    | nil => simp
    | cons b rest =>
      rw [sortedStrsB, Bool.and_eq_true] at h
      have hrest := ih h.2
      rw [List.pairwise_cons]
      refine ⟨?_, hrest⟩
      intro y hy
      rcases List.mem_cons.mp hy with rfl | hy2
      · exact h.1
      · rw [List.pairwise_cons] at hrest
        exact localeLe_trans h.1 (hrest.1 y hy2)

theorem nodeLe_total (a b : NbtNode) : nodeLe a b = true ∨ nodeLe b a = true :=
  localeLe_total a.name b.name

theorem nodeLe_trans (a b c : NbtNode) (h1 : nodeLe a b = true)
    (h2 : nodeLe b c = true) : nodeLe a c = true :=
  localeLe_trans h1 h2

theorem sortedNamesB_of_nodePairwise {cs : List NbtNode}
    (h : cs.Pairwise (nodeLe · · = true)) : sortedNamesB cs = true := by
  rw [sortedNamesB]
  exact sortedStrsB_of_pairwise ((List.pairwise_map).mpr h)

theorem nodePairwise_of_sortedNamesB {cs : List NbtNode}
    (h : sortedNamesB cs = true) : cs.Pairwise (nodeLe · · = true) := by
  rw [sortedNamesB] at h
  exact (List.pairwise_map).mp (pairwise_of_sortedStrsB h)

theorem sortedNamesB_jsSortBy (cs : List NbtNode) :
    sortedNamesB (jsSortBy nodeLe cs) = true :=
  sortedNamesB_of_nodePairwise
    (pairwise_jsSortBy nodeLe nodeLe_total nodeLe_trans cs)

/-! ### Sortedness is preserved by path-local mutation -/

theorem walkMod_name (F : NbtNode → NbtNode)
    (hFname : ∀ nd, (F nd).name = nd.name) (cur : NbtNode) (path : List String) :
    (walkMod F cur path).name = cur.name := by
  cases path with
  | nil => rw [walkMod]; exact hFname cur
  | cons s rest =>
    cases cur with
    | mk n t v p cs => rw [walkMod]; rfl

theorem walkModKids_names (F : NbtNode → NbtNode)
    (hFname : ∀ nd, (F nd).name = nd.name) (s : String) (rest : List String)
    (cs : List NbtNode) :
    (walkModKids F s rest cs).map NbtNode.name = cs.map NbtNode.name := by
  induction cs with
  | nil => rw [walkModKids]
  | cons c cs2 ih =>
    rw [walkModKids]
    by_cases hc : c.name == s
    · rw [if_pos hc]
      simp [walkMod_name F hFname]
    · rw [if_neg hc]
      simp [ih]

mutual

theorem walkMod_sorted (F : NbtNode → NbtNode)
    (hFname : ∀ nd, (F nd).name = nd.name)
    (hFsort : ∀ nd, sortedTree nd = true → sortedTree (F nd) = true)
    (cur : NbtNode) (path : List String) (h : sortedTree cur = true) :
    sortedTree (walkMod F cur path) = true := by
  cases path with
  | nil => rw [walkMod]; exact hFsort cur h
  | cons s rest =>
    cases cur with
    | mk n t v p cs =>
      rw [walkMod, sortedTree_mk, Bool.and_eq_true]
      rw [sortedTree_mk, Bool.and_eq_true] at h
      refine ⟨?_, walkModKids_sortedForest F hFname hFsort s rest cs h.2⟩
      by_cases ht : t = TagType.Compound
      · rw [if_pos ht]
        rw [if_pos ht] at h
        rw [sortedNamesB, walkModKids_names F hFname]
        exact h.1
      · rw [if_neg ht]
termination_by (path.length, 0)

theorem walkModKids_sortedForest (F : NbtNode → NbtNode)
    (hFname : ∀ nd, (F nd).name = nd.name)
    (hFsort : ∀ nd, sortedTree nd = true → sortedTree (F nd) = true)
    (s : String) (rest : List String) (cs : List NbtNode)
    (h : sortedForest cs = true) :
    sortedForest (walkModKids F s rest cs) = true := by
  cases cs with
  | nil => rw [walkModKids]; exact h
  | cons c cs2 =>
    rw [sortedForest, Bool.and_eq_true] at h
    rw [walkModKids]
    by_cases hc : c.name == s
    · rw [if_pos hc, sortedForest, Bool.and_eq_true]
      exact ⟨walkMod_sorted F hFname hFsort c rest h.1, h.2⟩
    · rw [if_neg hc, sortedForest, Bool.and_eq_true]
      exact ⟨h.1, walkModKids_sortedForest F hFname hFsort s rest cs2 h.2⟩
termination_by (rest.length, cs.length + 1)

end

theorem modifyAt_sorted (root : NbtNode) (path : List String)
    (F : NbtNode → NbtNode)
    (hFname : ∀ nd, (F nd).name = nd.name)
    (hFsort : ∀ nd, sortedTree nd = true → sortedTree (F nd) = true)
    (h : sortedTree root = true) : sortedTree (modifyAt root path F) = true := by
  rw [modifyAt]
  by_cases hlen : path.length ≤ 1
  · rw [if_pos hlen]
    exact hFsort root h
  · rw [if_neg hlen]
    exact walkMod_sorted F hFname hFsort root (path.drop 1) h

/-! ### The per-operation mutation steps preserve name and sortedness -/

theorem syncChildEntry_name (child nd : NbtNode) :
    (syncChildEntry child nd).name = nd.name := by
  cases nd with
  | mk n t v p cs => rfl

theorem syncChildEntry_sorted (child nd : NbtNode)
    (h : sortedTree nd = true) : sortedTree (syncChildEntry child nd) = true := by
  cases nd with
  | mk n t v p cs =>
    rw [sortedTree_mk] at h
    rw [syncChildEntry, sortedTree_mk]
    exact h

theorem setValue_name (v : NbtValue) (nd : NbtNode) :
    (setValue v nd).name = nd.name := by
  cases nd with
  | mk n t v0 p cs => rfl

theorem setValue_sorted (v : NbtValue) (nd : NbtNode)
    (h : sortedTree nd = true) : sortedTree (setValue v nd) = true := by
  cases nd with
  | mk n t v0 p cs =>
    rw [setValue]
    rw [sortedTree_mk] at h
    rw [sortedTree_mk]
    exact h

theorem updParentStep_sorted (path : List String) (root : NbtNode) (i : Nat)
    (h : sortedTree root = true) :
    sortedTree (updParentStep path root i) = true := by
  rw [updParentStep]
  cases hf : findNodeByPath root (path.take (i + 1)) with
  | none => exact h
  | some child =>
    exact modifyAt_sorted root (path.take i) (syncChildEntry child)
      (syncChildEntry_name child) (syncChildEntry_sorted child) h

theorem updLoop_sorted (path : List String) (i : Nat) (root : NbtNode)
    (h : sortedTree root = true) : sortedTree (updLoop path i root) = true := by
  induction i generalizing root with
  | zero => exact h
  | succ i ih =>
    rw [updLoop]
    exact ih _ (updParentStep_sorted path root (i + 1) h)

theorem sortedForest_append (cs ds : List NbtNode)
    (h1 : sortedForest cs = true) (h2 : sortedForest ds = true) :
    sortedForest (cs ++ ds) = true := by
  rw [sortedForest_iff] at h1 h2 ⊢
  intro c hc
  rcases List.mem_append.mp hc with hc | hc
  · exact h1 c hc
  · exact h2 c hc

theorem sortedTree_leafChildless (nm : String) (t : TagType) (v : NbtValue)
    (p : List String) : sortedTree (.mk nm t v p []) = true := by
  rw [sortedTree_mk]
  cases t <;> rfl

theorem addChildAction_name (nm : String) (t : TagType) (v : NbtValue)
    (pp : List String) (nd : NbtNode) :
    (addChildAction nm t v pp nd).name = nd.name := by
  cases nd with
  | mk pn pt pv pvp cs => cases pt <;> cases pv <;> rfl

theorem addChildAction_sorted (nm : String) (t : TagType) (v : NbtValue)
    (pp : List String) (nd : NbtNode) (h : sortedTree nd = true) :
    sortedTree (addChildAction nm t v pp nd) = true := by
  cases nd with
  | mk pn pt pv pvp cs =>
    have hforest : ∀ (newNode : NbtNode), sortedTree newNode = true →
        ∀ c ∈ cs ++ [newNode], sortedTree c = true := by
      rw [sortedTree_mk, Bool.and_eq_true] at h
      intro newNode hnew c hc
      rcases List.mem_append.mp hc with hc | hc
      · exact (sortedForest_iff cs).mp h.2 c hc
      · rw [List.mem_singleton] at hc
        subst hc
        exact hnew
    cases pt <;> cases pv <;> (try exact h)
    · -- List parent with list value
      show sortedTree (.mk pn .List (.listV _ (_ ++ [v])) pvp
        (cs ++ [.mk (toString cs.length) t v (pp ++ [toString cs.length]) []])) = true
      rw [sortedTree_mk, Bool.and_eq_true]
      constructor
      · rw [if_neg (by decide)]
      · rw [sortedForest_iff]
        exact hforest _ (sortedTree_leafChildless _ t v _)
    · -- Compound parent with compound value
      show sortedTree (.mk pn .Compound (.compoundV (setKey _ nm t v)) pvp
        (jsSortBy (fun a b => localeLe a.name b.name)
          (cs ++ [.mk nm t v (pp ++ [nm]) []]))) = true
      rw [sortedTree_mk, Bool.and_eq_true]
      constructor
      · rw [if_pos rfl]
        exact sortedNamesB_jsSortBy _
      · rw [sortedForest_iff]
        intro c hc
        rw [show (fun (a b : NbtNode) => localeLe a.name b.name) = nodeLe from rfl,
          mem_jsSortBy] at hc
        exact hforest _ (sortedTree_leafChildless nm t v (pp ++ [nm])) c hc

theorem sortedNamesB_filter (cs : List NbtNode) (q : NbtNode → Bool)
    (h : sortedNamesB cs = true) : sortedNamesB (cs.filter q) = true :=
  sortedNamesB_of_nodePairwise ((nodePairwise_of_sortedNamesB h).filter q)

theorem sortedForest_filter (cs : List NbtNode) (q : NbtNode → Bool)
    (h : sortedForest cs = true) : sortedForest (cs.filter q) = true := by
  rw [sortedForest_iff] at h ⊢
  intro c hc
  exact h c (List.mem_of_mem_filter hc)

theorem sortedForest_eraseIdx (cs : List NbtNode) (i : Nat)
    (h : sortedForest cs = true) : sortedForest (cs.eraseIdx i) = true := by
  rw [sortedForest_iff] at h ⊢
  intro c hc
  exact h c ((cs.eraseIdx_sublist i).subset hc)

theorem sortedForest_renumberKids (pp : List String) (i : Nat) (cs : List NbtNode)
    (h : sortedForest cs = true) : sortedForest (renumberKids pp i cs) = true := by
  induction cs generalizing i with
  | nil => rw [renumberKids]; exact h
  | cons c rest ih =>
    cases c with
    | mk n t v p kids =>
      rw [sortedForest, Bool.and_eq_true] at h
      rw [renumberKids, sortedForest, Bool.and_eq_true]
      constructor
      · rw [sortedTree_mk]
        rw [sortedTree_mk] at h
        exact h.1
      · exact ih (i + 1) h.2

theorem deleteChildAction_name (nodeName : String) (pp : List String)
    (nd : NbtNode) : (deleteChildAction nodeName pp nd).name = nd.name := by
  cases nd with
  | mk pn pt pv pvp cs => cases pt <;> cases pv <;> rfl

theorem deleteChildAction_sorted (nodeName : String) (pp : List String)
    (nd : NbtNode) (h : sortedTree nd = true) :
    sortedTree (deleteChildAction nodeName pp nd) = true := by
  cases nd with
  | mk pn pt pv pvp cs =>
    have h2 := h
    rw [sortedTree_mk, Bool.and_eq_true] at h2
    cases pt <;> cases pv <;> (try exact h)
    · -- List parent with list value
      show sortedTree (.mk pn .List (.listV _ _) pvp
        (renumberKids pp 0 (cs.eraseIdx ((parseIndex nodeName).getD 0)))) = true
      rw [sortedTree_mk, Bool.and_eq_true]
      refine ⟨by rw [if_neg (by decide)], ?_⟩
      exact sortedForest_renumberKids pp 0 _ (sortedForest_eraseIdx cs _ h2.2)
    · -- Compound parent with compound value
      show sortedTree (.mk pn .Compound (.compoundV (delKey _ nodeName)) pvp
        (cs.filter (fun c => ¬ c.name == nodeName))) = true
      rw [sortedTree_mk, Bool.and_eq_true]
      refine ⟨?_, sortedForest_filter cs _ h2.2⟩
      rw [if_pos rfl]
      exact sortedNamesB_filter cs _ (by simpa using h2.1)

theorem sortedForest_renameFirstKid (oldName newName : String)
    (pp : List String) (cs : List NbtNode) (h : sortedForest cs = true) :
    sortedForest (renameFirstKid oldName newName pp cs) = true := by
  induction cs with
  | nil => rw [renameFirstKid]; exact h
  | cons c rest ih =>
    cases c with
    | mk n t v p kids =>
      rw [sortedForest, Bool.and_eq_true] at h
      rw [renameFirstKid]
      by_cases hn : n == oldName
      · rw [if_pos hn, sortedForest, Bool.and_eq_true]
        refine ⟨?_, h.2⟩
        rw [sortedTree_mk]
        rw [sortedTree_mk] at h
        exact h.1
      · rw [if_neg hn, sortedForest, Bool.and_eq_true]
        exact ⟨h.1, ih h.2⟩

theorem renameChildAction_name (oldName newName : String) (pp : List String)
    (nd : NbtNode) : (renameChildAction oldName newName pp nd).name = nd.name := by
  cases nd with
  | mk pn pt pv pvp cs => rfl

theorem renameChildAction_sorted (oldName newName : String) (pp : List String)
    (nd : NbtNode) (h : sortedTree nd = true) :
    sortedTree (renameChildAction oldName newName pp nd) = true := by
  cases nd with
  | mk pn pt pv pvp cs =>
    rw [sortedTree_mk, Bool.and_eq_true] at h
    rw [renameChildAction, sortedTree_mk, Bool.and_eq_true]
    constructor
    · by_cases ht : pt = TagType.Compound
      · rw [if_pos ht]
        exact sortedNamesB_jsSortBy _
      · rw [if_neg ht]
    · rw [sortedForest_iff]
      intro c hc
      rw [show (fun (a b : NbtNode) => localeLe a.name b.name) = nodeLe from rfl,
        mem_jsSortBy] at hc
      exact (sortedForest_iff _).mp
        (sortedForest_renameFirstKid oldName newName pp cs h.2) c hc

/-! ### The operations preserve the sortedness invariant -/

theorem updateParentValues_sorted (root : NbtNode) (path : List String)
    (h : sortedTree root = true) :
    sortedTree (updateParentValues root path) = true :=
  updLoop_sorted path (path.length - 1) root h

theorem addTag_sorted (root : NbtNode) (parentPath : List String) (nm : String)
    (t : TagType) (v : NbtValue) (h : sortedTree root = true) :
    sortedTree (addTag root parentPath nm t v) = true := by
  rw [addTag, cloneTree_self]
  cases findNodeByPath root parentPath with
  | none => exact h
  | some p =>
    exact updateParentValues_sorted _ _
      (modifyAt_sorted root parentPath _ (addChildAction_name nm t v parentPath)
        (addChildAction_sorted nm t v parentPath) h)

theorem deleteTag_sorted (root : NbtNode) (nodePath : List String)
    (h : sortedTree root = true) : sortedTree (deleteTag root nodePath) = true := by
  rw [deleteTag]
  by_cases hlen : nodePath.length ≤ 1
  · rw [if_pos hlen]
    exact h
  · rw [if_neg hlen, cloneTree_self]
    cases findNodeByPath root nodePath.dropLast with
    | none => exact h
    | some p =>
      exact updateParentValues_sorted _ _
        (modifyAt_sorted root nodePath.dropLast _
          (deleteChildAction_name _ nodePath.dropLast)
          (deleteChildAction_sorted _ nodePath.dropLast) h)

theorem renameTag_sorted (root : NbtNode) (nodePath : List String)
    (newName : String) (h : sortedTree root = true) :
    sortedTree (renameTag root nodePath newName) = true := by
  rw [renameTag]
  by_cases hlen : nodePath.length ≤ 1
  · rw [if_pos hlen]
    exact h
  · rw [if_neg hlen, cloneTree_self]
    cases findNodeByPath root nodePath.dropLast with
    | none => exact h
    | some p =>
      cases findNodeByPath root nodePath with
      | none => exact h
      | some q =>
        change sortedTree (if p.ty = TagType.Compound then
          modifyAt root nodePath.dropLast
            (renameChildAction (nodePath.getLast?.getD "") newName nodePath.dropLast)
          else root) = true
        by_cases ht : p.ty = TagType.Compound
        · rw [if_pos ht]
          exact modifyAt_sorted root nodePath.dropLast _
            (renameChildAction_name _ newName nodePath.dropLast)
            (renameChildAction_sorted _ newName nodePath.dropLast) h
        · rw [if_neg ht]
          exact h

/-! ### Trees built by buildTreeNode are sorted -/

theorem sortedNamesB_buildEntNodes_sorted (m : List (String × TagType × NbtValue))
    (p : List String) :
    sortedNamesB (buildEntNodes (jsSortBy entLe m) p) = true := by
  rw [sortedNamesB, buildEntNodes_names]
  apply sortedStrsB_of_pairwise
  have hp := pairwise_jsSortBy entLe
    (fun a b => localeLe_total a.1 b.1) (fun a b c => localeLe_trans) m
  exact (List.pairwise_map).mpr hp

mutual

theorem buildTreeNode_sorted (nm : String) (t : TagType) (v : NbtValue)
    (p : List String) : sortedTree (buildTreeNode nm t v p) = true := by
  rw [buildTreeNode_eq, sortedTree_mk, Bool.and_eq_true]
  constructor
  · cases t <;> cases v <;>
      (try (rw [if_neg (by decide)]; done)) <;>
      (try (rw [if_pos rfl]; rfl; done))
    · -- Compound with a compound value
      rw [if_pos rfl]
      exact sortedNamesB_buildEntNodes_sorted _ _
  · cases t <;> cases v <;> (try rfl)
    · -- List with a list value
      exact buildIdxNodes_sortedForest _ _ _ _
    · -- Compound with a compound value
      exact buildEntNodes_sortedForest _ _
termination_by (sizeOf v, 1)
decreasing_by
  · simp_wf
    omega
  · simp_wf
    rw [sizeOf_jsSortBy]
    omega

theorem buildEntNodes_sortedForest (m : List (String × TagType × NbtValue))
    (p : List String) : sortedForest (buildEntNodes m p) = true := by
  cases m with
  | nil => rw [buildEntNodes]; rfl
  | cons e rest =>
    obtain ⟨k, t, v⟩ := e
    rw [buildEntNodes, sortedForest, Bool.and_eq_true]
    exact ⟨buildTreeNode_sorted k t v p, buildEntNodes_sortedForest rest p⟩
termination_by (sizeOf m, 0)

theorem buildIdxNodes_sortedForest (et : TagType) (p : List String) (i : Nat)
    (xs : List NbtValue) : sortedForest (buildIdxNodes et p i xs) = true := by
  cases xs with
  | nil => rw [buildIdxNodes]; rfl
  | cons x rest =>
    rw [buildIdxNodes, sortedForest, Bool.and_eq_true]
    exact ⟨buildTreeNode_sorted (toString i) et x p,
      buildIdxNodes_sortedForest et p (i + 1) rest⟩
termination_by (sizeOf xs, 0)

end

/-! ### C3: the claim theorems -/

/-- A parsed document whose Compound holds the keys `B` and `a`. -/
def c3Root : NbtNode :=
  buildTreeNode "root" .Compound
    (.compoundV [("B", .Byte, .numV 0), ("a", .Byte, .numV 0)]) []

/-- C3 counterexample: `buildTreeNode` (like `addTag` and `renameTag`)
sorts children with `localeCompare`, whose default collation places `a`
before `B`; the resulting child order `["a", "B"]` is not sorted under
the claim's case-sensitive code-unit comparison (`"B" < "a"` there). -/
theorem C3_codeunit_order_counterexample :
    c3Root.children.map NbtNode.name = ["a", "B"] ∧
    codeUnitSortedStrs (c3Root.children.map NbtNode.name) = false := by
  have h : c3Root.children.map NbtNode.name = ["a", "B"] := by
    rw [c3Root, buildTreeNode_eq, NbtNode.children_mk]
    rw [show (match TagType.Compound,
        NbtValue.compoundV [("B", .Byte, .numV 0), ("a", .Byte, .numV 0)] with
       | TagType.Compound, NbtValue.compoundV m =>
          buildEntNodes (jsSortBy entLe m) ([] ++ ["root"])
       | TagType.List, NbtValue.listV et xs =>
          buildIdxNodes et ([] ++ ["root"]) 0 xs
       | _, _ => ([] : List NbtNode)) =
      buildEntNodes (jsSortBy entLe
        [("B", .Byte, .numV 0), ("a", .Byte, .numV 0)]) ([] ++ ["root"]) from rfl]
    rw [buildEntNodes_names]
    rfl
  exact ⟨h, by rw [h]; rfl⟩

/-- C3 (amended): under the comparator the code actually uses —
`localeCompare`, modelled as the default-collation order `localeLe` — the
ordering is a real invariant: every Compound node's children in a tree
produced by `buildTreeNode` are name-sorted, and `addTag`, `deleteTag`
and `renameTag` each preserve tree-wide name-sortedness, hence any finite
sequence of them does.  (Under the claim's case-sensitive code-unit
comparison the invariant fails already at parse time, see the
counterexample.) -/
theorem C3_children_sorted_invariant :
    (∀ nm t v p, sortedTree (buildTreeNode nm t v p) = true) ∧
    (∀ root pp nm t v, sortedTree root = true →
      sortedTree (addTag root pp nm t v) = true) ∧
    (∀ root np, sortedTree root = true → sortedTree (deleteTag root np) = true) ∧
    (∀ root np nn, sortedTree root = true →
      sortedTree (renameTag root np nn) = true) :=
  ⟨buildTreeNode_sorted,
    fun root pp nm t v h => addTag_sorted root pp nm t v h,
    fun root np h => deleteTag_sorted root np h,
    fun root np nn h => renameTag_sorted root np nn h⟩

/-- C3 witness: the invariant applied to a concrete edit — adding a `k`
entry to a sorted one-entry document keeps every Compound's children
sorted. -/
theorem C3_children_sorted_invariant_witness :
    sortedTree (addTag c2Root ["root"] "k" .Byte (.numV 3)) = true :=
  C3_children_sorted_invariant.2.1 c2Root ["root"] "k" .Byte (.numV 3) (by rfl)
